import Mathlib

/-!
Verification of the obidog hints-generation pipeline
(`obidog/hints/hints.py` together with the entity models in
`obidog/models/flags.py`, `obidog/models/classes.py`, `obidog/models/globals.py`).

Python strings are modelled by Lean `String`; string helpers that Python
provides (`str.strip`, `str.removeprefix`, `str.removesuffix`,
`str.replace("::", ".")`, `re.search(r"^operator\W", ...)`) are embedded as
executable functions over the underlying character list.  Python `dict`s are
modelled as association lists in insertion order: assignment to an existing
key replaces the value in place, assignment to a fresh key appends, `pop`
removes, iteration is in list order.
-/

namespace Obidog

/-- Python `str.strip()` on the underlying characters: drop whitespace from
both ends. -/
def pyStrip (s : String) : String :=
  ⟨((s.data.dropWhile Char.isWhitespace).reverse.dropWhile Char.isWhitespace).reverse⟩

/-- Python `str.removeprefix(p)`: drop `p` from the front when it is a prefix,
otherwise return the string unchanged. -/
def removePrefixStr (s p : String) : String :=
  if p.data.isPrefixOf s.data then ⟨s.data.drop p.data.length⟩ else s

/-- Python `str.removesuffix(p)`: drop `p` from the end when it is a suffix,
otherwise return the string unchanged. -/
def removeSuffixStr (s p : String) : String :=
  if p.data.isSuffixOf s.data then ⟨s.data.take (s.data.length - p.data.length)⟩ else s

/-- Python `str.startswith(p)`. -/
def startsWithStr (s p : String) : Bool :=
  p.data.isPrefixOf s.data

/-- Characters matched by the regex class `\w` (ASCII range): letters, digits
and underscore. -/
def isWordChar (c : Char) : Bool :=
  c.isAlpha || c.isDigit || c == '_'

/-- Python `s.replace("::", ".")` on the character list: replace each
non-overlapping occurrence of `::`, scanning left to right. -/
def replaceColonsL : List Char → List Char
  | [] => []
  | [c] => [c]
  | c1 :: c2 :: rest =>
    if c1 = ':' ∧ c2 = ':' then '.' :: replaceColonsL rest
    else c1 :: replaceColonsL (c2 :: rest)

/-- `namespace.replace("::", ".")` as used throughout `hints.py`. -/
def replaceColons (s : String) : String :=
  ⟨replaceColonsL s.data⟩

/-- `s.count(".")`: number of `.` characters (the sort key of
`_get_namespace_tables`). -/
def countDots (s : String) : Nat :=
  s.data.count '.'

/-- Python `dict` as an association list in insertion order. -/
abbrev Dict (α : Type) := List (String × α)

/-- First value stored under key `k` (Python `d[k]` / `d.get(k)`). -/
def Dict.get? {α : Type} : Dict α → String → Option α
  | [], _ => none
  | p :: rest, k => if p.1 = k then some p.2 else Dict.get? rest k

/-- Python `k in d`. -/
def Dict.hasKey {α : Type} (d : Dict α) (k : String) : Bool :=
  d.any (fun p => p.1 == k)

/-- Python `d[k] = v`: replace in place when the key exists, append
otherwise. -/
def Dict.insert {α : Type} (d : Dict α) (k : String) (v : α) : Dict α :=
  if d.hasKey k then d.map (fun p => if p.1 = k then (k, v) else p)
  else d ++ [(k, v)]

/-- Python `d.pop(k)`. -/
def Dict.pop {α : Type} (d : Dict α) (k : String) : Dict α :=
  d.filter (fun p => !(p.1 == k))

/-- Python `d |= e` (`dict.update`): insert every entry of `e` into `d`, in
order. -/
def Dict.update {α : Type} (d e : Dict α) : Dict α :=
  e.foldl (fun acc p => acc.insert p.1 p.2) d

/-- `LuaType(type=...)` from `obidog/converters/lua/types.py` (module not
under `src/`).  Modelled from the spec: a target-scripting type annotation
carried as a string. -/
structure LuaType where
  type : String := ""
deriving DecidableEq

/-- `QualifiersModel` from `obidog/models/qualifiers.py` (file not under
`src/`).  Modelled from the spec: `qualifiers` (const/static). -/
structure QualifiersModel where
  const : Bool := false
  static : Bool := false
deriving DecidableEq

/-- `ObidogFlagsModel` from `obidog/models/flags.py`. -/
structure ObidogFlagsModel where
  bind_to : String := ""
  helpers : List String := []
  template_hints : List String := []
  abstract : Bool := false
  nobind : Bool := false
  additional_includes : List String := []
  as_property : Bool := false
  copy_parent_items : Bool := false
  proxy : Bool := false
  noconstructor : Bool := false
deriving DecidableEq

/-- `ObidogFlagsModel.combine` from `obidog/models/flags.py` (functional
version of the in-place mutation: the result is the updated `self`).
`self.bind_to or flags.bind_to` keeps `self.bind_to` exactly when it is
non-empty (Python truthiness of strings). -/
def ObidogFlagsModel.combine (self flags : ObidogFlagsModel) : ObidogFlagsModel :=
  { bind_to := if self.bind_to = "" then flags.bind_to else self.bind_to
    helpers := self.helpers ++ flags.helpers
    template_hints := self.template_hints ++ flags.template_hints
    abstract := self.abstract || flags.abstract
    nobind := self.nobind || flags.nobind
    additional_includes := self.additional_includes ++ flags.additional_includes
    as_property := self.as_property || flags.as_property
    copy_parent_items := self.copy_parent_items || flags.copy_parent_items
    proxy := self.proxy || flags.proxy
    noconstructor := self.noconstructor || flags.noconstructor }

/-- `FunctionModel` from `obidog/models/functions.py` (file not under
`src/`).  Modelled from the spec: a function carries parameters, a return
type and qualifiers on top of the common entity fields (name, namespace,
description, flags, export/visibility metadata, location, urls).  `export`,
`location`, `visibility` and `urls` are carried as uninterpreted strings. -/
structure FunctionModel where
  name : String
  «namespace» : String := ""
  parameters : List LuaType := []
  return_type : LuaType := {}
  qualifiers : QualifiersModel := {}
  description : String := ""
  flags : ObidogFlagsModel := {}
  «export» : String := ""
  location : String := ""
  visibility : String := ""
  urls : String := ""
deriving DecidableEq

/-- `AttributeModel` from `obidog/models/classes.py`, together with the
common entity fields supplied by `BaseModel` (`obidog/models/base.py`, not
under `src/`, modelled from the spec: every entity carries `namespace`,
`location`, `visibility`; an attribute additionally carries an optional
`initializer` source text used for literal extraction in event synthesis). -/
structure AttributeModel where
  name : String
  «namespace» : String := ""
  type : LuaType := {}
  qualifiers : QualifiersModel := {}
  description : String := ""
  flags : ObidogFlagsModel := {}
  «export» : String := ""
  location : String := ""
  visibility : String := ""
  urls : String := ""
  initializer : String := ""
deriving DecidableEq

/-- `ClassModel` from `obidog/models/classes.py`. -/
structure ClassModel where
  name : String
  «namespace» : String := ""
  abstract : Bool := false
  bases : List String := []
  attributes : Dict AttributeModel := []
  constructors : List FunctionModel := []
  destructor : Option FunctionModel := none
  methods : Dict FunctionModel := []
  flags : ObidogFlagsModel := {}
  description : String := ""
  location : String := ""
  «export» : String := ""
  urls : String := ""
deriving DecidableEq

/-- `GlobalModel` from `obidog/models/globals.py` (plus the `flags` record
every entity carries per the spec). -/
structure GlobalModel where
  name : String
  definition : String := ""
  type : String := ""
  «namespace» : String := ""
  initializer : String := ""
  location : String := ""
  description : String := ""
  «export» : String := ""
  urls : String := ""
  flags : ObidogFlagsModel := {}
deriving DecidableEq

/-- `EnumModel` (file not under `src/`).  Modelled from the spec: common
entity fields only, as far as the pipeline under verification reads them. -/
structure EnumModel where
  name : String
  «namespace» : String := ""
  description : String := ""
  flags : ObidogFlagsModel := {}
deriving DecidableEq

/-- `TypedefModel` (file not under `src/`).  Modelled from the spec: common
entity fields only. -/
structure TypedefModel where
  name : String
  «namespace» : String := ""
  description : String := ""
  flags : ObidogFlagsModel := {}
deriving DecidableEq

/-- `NamespaceModel` (file not under `src/`).  Modelled from the spec: common
entity fields only. -/
structure NamespaceModel where
  name : String
  «namespace» : String := ""
  description : String := ""
  flags : ObidogFlagsModel := {}
deriving DecidableEq

/-- One element of the heterogeneous flattened list built by
`generate_hints` (the `_type` kind tag of the Python models becomes the
constructor). -/
inductive Element
  | cls : ClassModel → Element
  | func : FunctionModel → Element
  | glob : GlobalModel → Element
  | enum : EnumModel → Element
  | typedef : TypedefModel → Element
  | ns : NamespaceModel → Element
deriving DecidableEq

/-- The `flags` record of an element (every entity carries one). -/
def Element.flags : Element → ObidogFlagsModel
  | .cls c => c.flags
  | .func f => f.flags
  | .glob g => g.flags
  | .enum e => e.flags
  | .typedef t => t.flags
  | .ns n => n.flags

/-- The `namespace` field of an element. -/
def Element.nspace : Element → String
  | .cls c => c.«namespace»
  | .func f => f.«namespace»
  | .glob g => g.«namespace»
  | .enum e => e.«namespace»
  | .typedef t => t.«namespace»
  | .ns n => n.«namespace»

/-- `CppDatabase` from `obidog/databases.py` (file not under `src/`).
Modelled from the spec: the Declaration Store keyed by kind (classes,
functions, globals, enums, typedefs, namespaces). -/
structure CppDatabase where
  classes : Dict ClassModel := []
  functions : Dict FunctionModel := []
  globals : Dict GlobalModel := []
  enums : Dict EnumModel := []
  typedefs : Dict TypedefModel := []
  namespaces : Dict NamespaceModel := []
deriving DecidableEq

/-- Per-constructor step of `_add_return_type_to_constructors`: set
`return_type` to `<namespace-with-dots>.<ClassName>` and default an empty
description to `"<same> constructor"`. -/
def fixConstructor (ns clsName : String) (c : FunctionModel) : FunctionModel :=
  let lua_class_name := replaceColons ns ++ "." ++ clsName
  { c with
    return_type := { type := lua_class_name }
    description := if c.description = "" then lua_class_name ++ " constructor" else c.description }

/-- `_add_return_type_to_constructors` from `hints.py`, acting on the class
collection (functional version of the in-place loop). -/
def _add_return_type_to_constructors (classes : Dict ClassModel) : Dict ClassModel :=
  classes.map fun p =>
    (p.1, { p.2 with constructors := p.2.constructors.map (fixConstructor p.2.«namespace» p.2.name) })

/-- `re.search(r"^operator\W", name)`: the name starts with the literal word
`operator` immediately followed by a non-word character. -/
def isOperatorName (s : String) : Bool :=
  match s.data with
  | 'o' :: 'p' :: 'e' :: 'r' :: 'a' :: 't' :: 'o' :: 'r' :: c :: _ => !isWordChar c
  | _ => false

/-- `_remove_operators` from `hints.py`: per class, collect the keys of
methods whose name matches `^operator\W`, then pop those keys. -/
def _remove_operators (classes : Dict ClassModel) : Dict ClassModel :=
  classes.map fun p =>
    let operators_to_pop := (p.2.methods.filter (fun q => isOperatorName q.2.name)).map Prod.fst
    (p.1, { p.2 with methods := p.2.methods.filter (fun q => !operators_to_pop.contains q.1) })

/-- The comparison key of `_get_namespace_tables`: ascending count of `.`
separators. -/
def nsLE (a b : String) : Prop :=
  countDots a ≤ countDots b

instance : DecidableRel nsLE := fun a b => inferInstanceAs (Decidable (countDots a ≤ countDots b))

instance : IsTotal String nsLE := ⟨fun a b => Nat.le_total (countDots a) (countDots b)⟩

instance : IsTrans String nsLE := ⟨fun _ _ _ h1 h2 => Nat.le_trans h1 h2⟩

/-- `_get_namespace_tables` from `hints.py`: the distinct non-empty
namespaces of the elements, `::` rewritten to `.`, deduplicated and sorted
ascending by separator count.  Python's `set` iteration order is
unspecified; it is modelled by `List.dedup`, and every property proved below
is independent of that order. -/
def _get_namespace_tables (elements : List Element) : List String :=
  List.insertionSort nsLE
    ((elements.filterMap fun e =>
      if e.nspace = "" then none else some (replaceColons e.nspace)).dedup)

/-- The `bind_to` rename of `_fix_bind_as` on one function. -/
def fixFunc (f : FunctionModel) : FunctionModel :=
  if f.flags.bind_to = "" then f else { f with name := f.flags.bind_to }

/-- The `bind_to` rename of `_fix_bind_as` on one attribute. -/
def fixAttr (a : AttributeModel) : AttributeModel :=
  if a.flags.bind_to = "" then a else { a with name := a.flags.bind_to }

/-- The `bind_to` rename of `_fix_bind_as` on one class: rename the class by
its own flag, then recurse into the values of its method and attribute
dicts (keys are untouched). -/
def fixClass (c : ClassModel) : ClassModel :=
  { c with
    name := if c.flags.bind_to = "" then c.name else c.flags.bind_to
    methods := c.methods.map (fun p => (p.1, fixFunc p.2))
    attributes := c.attributes.map (fun p => (p.1, fixAttr p.2)) }

/-- `_fix_bind_as` from `hints.py` on a flattened element list. -/
def _fix_bind_as (elements : List Element) : List Element :=
  elements.map fun e =>
    match e with
    | .cls c => .cls (fixClass c)
    | .func f => .func (fixFunc f)
    | .glob g => .glob (if g.flags.bind_to = "" then g else { g with name := g.flags.bind_to })
    | .enum en => .enum (if en.flags.bind_to = "" then en else { en with name := en.flags.bind_to })
    | .typedef t => .typedef (if t.flags.bind_to = "" then t else { t with name := t.flags.bind_to })
    | .ns n => .ns (if n.flags.bind_to = "" then n else { n with name := n.flags.bind_to })

/-- The action of `_fix_bind_as` on the class collection (each class value
goes through `fixClass`; dict keys are untouched). -/
def fixBindAsClasses (classes : Dict ClassModel) : Dict ClassModel :=
  classes.map fun p => (p.1, fixClass p.2)

/-- The attribute `_setup_methods_as_attributes` builds from a method
flagged `as_property`. -/
def methodToAttribute (m : FunctionModel) : AttributeModel :=
  { name := m.name
    «namespace» := m.«namespace»
    type := m.return_type
    qualifiers := { const := m.qualifiers.const, static := m.qualifiers.static }
    description := m.description
    flags := m.flags
    «export» := m.«export»
    location := m.location
    visibility := m.visibility
    urls := m.urls }

/-- Per-class step of `_setup_methods_as_attributes`: every method flagged
`as_property` is inserted into `attributes` under the method's `name`, then
popped from `methods` by its dict key. -/
def setupClass (cv : ClassModel) : ClassModel :=
  let props := cv.methods.filter (fun p => p.2.flags.as_property)
  let methods_to_pop := props.map Prod.fst
  { cv with
    attributes := props.foldl (fun acc p => acc.insert p.2.name (methodToAttribute p.2)) cv.attributes
    methods := cv.methods.filter (fun p => !methods_to_pop.contains p.1) }

/-- `_setup_methods_as_attributes` from `hints.py` on the class collection. -/
def _setup_methods_as_attributes (classes : Dict ClassModel) : Dict ClassModel :=
  classes.map fun p => (p.1, setupClass p.2)

/-- The event id extraction of `_build_table_for_events`:
`initializer.strip().removeprefix("=").strip().removeprefix('"').removesuffix('"')`. -/
def extractEventId (ini : String) : String :=
  removeSuffixStr (removePrefixStr (pyStrip (removePrefixStr (pyStrip ini) "=")) "\x22") "\x22"

/-- The events root prefix scanned by `_build_table_for_events`. -/
def eventsRoot : String := "obe::Events::"

/-- The classes collected into `events`: those whose namespace starts with
`obe::Events::`, in store order. -/
def eventsFromClasses (classes : Dict ClassModel) : List ClassModel :=
  (classes.map Prod.snd).filter (fun cv => startsWithStr cv.«namespace» eventsRoot)

/-- The event items processed by the grouping loop, in iteration order:
section (`namespace.removeprefix("obe::Events::")`), extracted event id, and
the event class.  Classes lacking an `id` attribute are skipped. -/
def eligibleEvents (classes : Dict ClassModel) : List (String × String × ClassModel) :=
  (eventsFromClasses classes).filterMap fun cv =>
    match Dict.get? cv.attributes "id" with
    | none => none
    | some a => some (removePrefixStr cv.«namespace» eventsRoot, extractEventId a.initializer, cv)

/-- One step of the `defaultdict(list)` grouping: append `v` to the list at
key `k`, creating the key at the end when absent. -/
def appendGroup (gs : List (String × List (String × ClassModel))) (k : String)
    (v : String × ClassModel) : List (String × List (String × ClassModel)) :=
  if gs.any (fun p => p.1 == k) then
    gs.map (fun p => if p.1 = k then (p.1, p.2 ++ [v]) else p)
  else gs ++ [(k, [v])]

/-- `events_grouped_by_section` from `_build_table_for_events`. -/
def groupEvents (classes : Dict ClassModel) : List (String × List (String × ClassModel)) :=
  (eligibleEvents classes).foldl (fun gs t => appendGroup gs t.1 (t.2.1, t.2.2)) []

/-- The attribute a section class stores for one event:
`AttributeModel(name=event_id, type=LuaType(f"fun(evt:obe.Events.{section}.{event.name})"), namespace=event.namespace)`. -/
def mkEventAttr (sec eventId : String) (event : ClassModel) : AttributeModel :=
  { name := eventId
    type := { type := "fun(evt:obe.Events." ++ sec ++ "." ++ event.name ++ ")" }
    «namespace» := event.«namespace» }

/-- The synthetic section class built for one event group (dict
comprehension over the group's `(event_id, event)` pairs; duplicate ids
overwrite). -/
def buildGroupClass (sec : String) (evts : List (String × ClassModel)) : ClassModel :=
  { name := sec
    «namespace» := "obe::Events::_EventTableGroups"
    attributes := evts.foldl (fun acc p => acc.insert p.1 (mkEventAttr sec p.1 p.2)) []
    constructors := []
    methods := [] }

/-- `event_groups` from `_build_table_for_events`. -/
def eventGroups (classes : Dict ClassModel) : List (String × ClassModel) :=
  (groupEvents classes).map fun p => (p.1, buildGroupClass p.1 p.2)

/-- The attribute the top-level `_EventTable` class stores for one section:
`AttributeModel(name=group.name, namespace=group.namespace, type=LuaType(f"obe.Events._EventTableGroups.{section}"))`. -/
def mkGroupAttr (sec : String) (group : ClassModel) : AttributeModel :=
  { name := group.name
    «namespace» := group.«namespace»
    type := { type := "obe.Events._EventTableGroups." ++ sec } }

/-- The synthetic top-level `_EventTable` class. -/
def eventTableClass (classes : Dict ClassModel) : ClassModel :=
  { name := "_EventTable"
    «namespace» := "obe::Events"
    attributes := (eventGroups classes).map (fun p => (p.1, mkGroupAttr p.1 p.2))
    constructors := []
    methods := [] }

/-- `_build_table_for_events` from `hints.py`: the dict of synthesized
classes, keyed `"{group.namespace}::{group.name}"` for each section group
and `"obe::Events::_EventTable"` for the top-level table. -/
def _build_table_for_events (classes : Dict ClassModel) : Dict ClassModel :=
  Dict.insert
    ((eventGroups classes).foldl
      (fun acc p => acc.insert ("obe::Events::_EventTableGroups::" ++ p.1) p.2) [])
    "obe::Events::_EventTable" (eventTableClass classes)

/-- The `cpp_db.classes |= _build_table_for_events(cpp_db.classes)` merge
performed by `generate_hints` (the `|= _generate_dynamic_types()` merge is
kept as an explicit parameter `dyn`, since the registered dynamic-type table
lives outside this repository slice). -/
def mergeSynthesized (dyn : Dict ClassModel) (db : CppDatabase) : CppDatabase :=
  { db with classes := Dict.update (Dict.update db.classes (_build_table_for_events db.classes)) dyn }

/-- Every entity of every kind of the store, in the iteration order of
`generate_hints`'s flattening comprehension. -/
def storeElements (db : CppDatabase) : List Element :=
  db.classes.map (fun p => Element.cls p.2)
    ++ db.functions.map (fun p => Element.func p.2)
    ++ db.globals.map (fun p => Element.glob p.2)
    ++ db.enums.map (fun p => Element.enum p.2)
    ++ db.typedefs.map (fun p => Element.typedef p.2)
    ++ db.namespaces.map (fun p => Element.ns p.2)

/-- `all_elements` from `generate_hints`: every entity of every kind whose
flags do not set `nobind` (a filter over the store, which is left intact). -/
def all_elements (db : CppDatabase) : List Element :=
  (storeElements db).filter (fun e => !e.flags.nobind)

/-! ### Association-list dictionary lemmas -/

theorem Dict.hasKey_cons {α : Type} (p : String × α) (d : Dict α) (k : String) :
    Dict.hasKey (p :: d) k = (p.1 == k || d.hasKey k) := by
  simp [Dict.hasKey]

theorem Dict.get?_eq_none_of_hasKey_eq_false {α : Type} {d : Dict α} {k : String}
    (h : d.hasKey k = false) : d.get? k = none := by
  induction d with
  | nil => rfl
  | cons p rest ih =>
    rw [Dict.hasKey_cons] at h
    simp only [Bool.or_eq_false_iff, beq_eq_false_iff_ne, ne_eq] at h
    rw [Dict.get?, if_neg h.1]
    exact ih (by simpa using h.2)

theorem Dict.hasKey_map_replace {α : Type} (d : Dict α) (k : String) (v : α) (x : String) :
    Dict.hasKey (d.map (fun p => if p.1 = k then (k, v) else p)) x = d.hasKey x := by
  induction d with
  | nil => rfl
  | cons p rest ih =>
    rw [List.map_cons, Dict.hasKey_cons, Dict.hasKey_cons, ih]
    by_cases hp : p.1 = k
    · rw [if_pos hp, hp]
    · rw [if_neg hp]

theorem Dict.get?_map_replace {α : Type} (d : Dict α) (k : String) (v : α) (x : String) :
    Dict.get? (d.map (fun p => if p.1 = k then (k, v) else p)) x =
      if x = k then (if d.hasKey k then some v else none) else d.get? x := by
  induction d with
  | nil => by_cases hx : x = k <;> simp [Dict.get?, Dict.hasKey, hx]
  | cons p rest ih =>
    rw [List.map_cons, Dict.hasKey_cons]
    by_cases hp : p.1 = k <;> by_cases hx : x = k
    · subst hx
      simp [Dict.get?, hp, ih]
    · have hkx : k ≠ x := fun h => hx h.symm
      have hpx : p.1 ≠ x := by rw [hp]; exact hkx
      simp [Dict.get?, hp, hx, hkx, hpx, ih]
    · subst hx
      have hpx : (p.1 == x) = false := beq_eq_false_iff_ne.mpr hp
      simp [Dict.get?, hp, hpx, ih]
    · simp [Dict.get?, hp, hx, ih]

theorem Dict.get?_append {α : Type} (d e : Dict α) (x : String) :
    Dict.get? (d ++ e) x = match d.get? x with
      | some w => some w
      | none => e.get? x := by
  induction d with
  | nil => simp [Dict.get?]
  | cons p rest ih =>
    by_cases hp : p.1 = x
    · simp [Dict.get?, hp]
    · simp only [List.cons_append, Dict.get?, if_neg hp]
      exact ih

theorem Dict.get?_insert {α : Type} (d : Dict α) (k : String) (v : α) (x : String) :
    (d.insert k v).get? x = if x = k then some v else d.get? x := by
  unfold Dict.insert
  by_cases hk : d.hasKey k
  · rw [if_pos hk, Dict.get?_map_replace, if_pos hk]
  · rw [if_neg hk, Dict.get?_append]
    by_cases hx : x = k
    · subst hx
      rw [Dict.get?_eq_none_of_hasKey_eq_false (Bool.of_not_eq_true hk), if_pos rfl]
      simp [Dict.get?]
    · rw [if_neg hx]
      cases h : d.get? x with
      | some w => rfl
      | none =>
        have hkx : ¬k = x := fun hh => hx hh.symm
        simp [Dict.get?, hkx]

theorem Dict.hasKey_insert {α : Type} (d : Dict α) (k : String) (v : α) (x : String) :
    (d.insert k v).hasKey x = (d.hasKey x || k == x) := by
  unfold Dict.insert
  by_cases hk : d.hasKey k
  · rw [if_pos hk, Dict.hasKey_map_replace]
    by_cases hx : k = x
    · subst hx
      simp [hk]
    · rw [beq_eq_false_iff_ne.mpr hx, Bool.or_false]
  · rw [if_neg hk]
    unfold Dict.hasKey
    simp [List.any_append]

theorem Dict.get?_foldl_insert {α β : Type} (key : β → String) (val : β → α)
    (l : List β) (d : Dict α) (x : String) :
    Dict.get? (l.foldl (fun acc p => acc.insert (key p) (val p)) d) x =
      match (l.filter (fun p => key p == x)).getLast? with
      | some p => some (val p)
      | none => d.get? x := by
  induction l generalizing d with
  | nil => simp
  | cons p l ih =>
    rw [List.foldl_cons, ih, List.filter_cons]
    by_cases hpx : key p = x
    · rw [if_pos (by simp [hpx])]
      rw [List.getLast?_cons]
      cases hfl : (l.filter (fun q => key q == x)).getLast? with
      | some q => simp
      | none =>
        simp only [Option.getD_none]
        rw [Dict.get?_insert, if_pos hpx.symm]
    · rw [if_neg (by simp [hpx])]
      cases hfl : (l.filter (fun q => key q == x)).getLast? with
      | some q => rfl
      | none =>
        rw [Dict.get?_insert, if_neg (fun h => hpx h.symm)]

theorem Dict.hasKey_foldl_insert {α β : Type} (key : β → String) (val : β → α)
    (l : List β) (d : Dict α) (x : String) :
    Dict.hasKey (l.foldl (fun acc p => acc.insert (key p) (val p)) d) x =
      (d.hasKey x || l.any (fun p => key p == x)) := by
  induction l generalizing d with
  | nil => simp
  | cons p l ih =>
    rw [List.foldl_cons, ih, Dict.hasKey_insert, List.any_cons]
    cases h : d.hasKey x <;> cases h2 : (key p == x) <;> simp

theorem Dict.foldl_insert_eq_append {α β : Type} (key : β → String) (val : β → α)
    (l : List β) (d : Dict α)
    (hfresh : ∀ p ∈ l, d.hasKey (key p) = false)
    (hnodup : (l.map key).Nodup) :
    l.foldl (fun acc p => acc.insert (key p) (val p)) d =
      d ++ l.map (fun p => (key p, val p)) := by
  induction l generalizing d with
  | nil => simp
  | cons p l ih =>
    rw [List.foldl_cons]
    have hk : d.hasKey (key p) = false := hfresh p (List.mem_cons_self p l)
    have hins : d.insert (key p) (val p) = d ++ [(key p, val p)] := by
      unfold Dict.insert
      rw [hk]
      simp
    rw [List.map_cons] at hnodup
    have hne := (List.nodup_cons.mp hnodup).1
    have hnd := (List.nodup_cons.mp hnodup).2
    rw [hins, ih (d ++ [(key p, val p)]) ?_ hnd]
    · simp
    · intro q hq
      unfold Dict.hasKey
      rw [List.any_append]
      have h1 : Dict.hasKey d (key q) = false := hfresh q (List.mem_cons_of_mem p hq)
      unfold Dict.hasKey at h1
      rw [h1]
      simp only [Bool.false_or, List.any_cons, List.any_nil, Bool.or_false,
        beq_eq_false_iff_ne, ne_eq]
      intro h
      exact hne (h ▸ List.mem_map_of_mem key hq)

/-! ### C9: flag combination -/

/-- C9: `combine(base, incoming)` merges flag records monotonically: every
boolean flag of the result is the OR of the inputs, every list flag is
base's list followed by incoming's list, and `bind_to` is base's value when
base's value is non-empty and incoming's value otherwise. -/
theorem claim_C9_flags_combine_monotone (base incoming : ObidogFlagsModel) :
    (base.combine incoming).abstract = (base.abstract || incoming.abstract) ∧
    (base.combine incoming).nobind = (base.nobind || incoming.nobind) ∧
    (base.combine incoming).as_property = (base.as_property || incoming.as_property) ∧
    (base.combine incoming).copy_parent_items = (base.copy_parent_items || incoming.copy_parent_items) ∧
    (base.combine incoming).proxy = (base.proxy || incoming.proxy) ∧
    (base.combine incoming).noconstructor = (base.noconstructor || incoming.noconstructor) ∧
    (base.combine incoming).helpers = base.helpers ++ incoming.helpers ∧
    (base.combine incoming).template_hints = base.template_hints ++ incoming.template_hints ∧
    (base.combine incoming).additional_includes = base.additional_includes ++ incoming.additional_includes ∧
    (base.combine incoming).bind_to = (if base.bind_to = "" then incoming.bind_to else base.bind_to) :=
  ⟨rfl, rfl, rfl, rfl, rfl, rfl, rfl, rfl, rfl, rfl⟩

/-! ### C5: constructor fixup -/

/-- C5: after `_add_return_type_to_constructors`, for every class every
constructor's `return_type` names
`<namespace with :: rewritten to .>.<ClassName>`; a previously empty
description becomes `"<same> constructor"`, a non-empty one is kept. -/
theorem claim_C5_constructor_fixup (classes : Dict ClassModel) (k : String) (cv : ClassModel)
    (hmem : (k, cv) ∈ classes) :
    ∃ cv', (k, cv') ∈ _add_return_type_to_constructors classes ∧
      cv'.constructors = cv.constructors.map (fixConstructor cv.«namespace» cv.name) ∧
      ∀ c ∈ cv.constructors,
        (fixConstructor cv.«namespace» cv.name c).return_type =
          { type := replaceColons cv.«namespace» ++ "." ++ cv.name } ∧
        (c.description = "" →
          (fixConstructor cv.«namespace» cv.name c).description =
            replaceColons cv.«namespace» ++ "." ++ cv.name ++ " constructor") ∧
        (c.description ≠ "" →
          (fixConstructor cv.«namespace» cv.name c).description = c.description) := by
  refine ⟨_, List.mem_map_of_mem _ hmem, rfl, ?_⟩
  intro c _
  refine ⟨rfl, ?_, ?_⟩ <;> intro hd <;> simp [fixConstructor, hd]

/-- Concrete input for the C5 witness: one class with two constructors, one
without a description and one with. -/
def exC5 : ClassModel :=
  { name := "Sprite"
    «namespace» := "obe::Graphics"
    constructors :=
      [{ name := "Sprite" }, { name := "Sprite", description := "builds a sprite" }] }

theorem claim_C5_witness :
    (("obe::Graphics::Sprite", exC5) ∈ [("obe::Graphics::Sprite", exC5)]) ∧
    (∃ cv', ("obe::Graphics::Sprite", cv') ∈
        _add_return_type_to_constructors [("obe::Graphics::Sprite", exC5)] ∧
      cv'.constructors = exC5.constructors.map (fixConstructor exC5.«namespace» exC5.name) ∧
      ∀ c ∈ exC5.constructors,
        (fixConstructor exC5.«namespace» exC5.name c).return_type =
          { type := replaceColons exC5.«namespace» ++ "." ++ exC5.name } ∧
        (c.description = "" →
          (fixConstructor exC5.«namespace» exC5.name c).description =
            replaceColons exC5.«namespace» ++ "." ++ exC5.name ++ " constructor") ∧
        (c.description ≠ "" →
          (fixConstructor exC5.«namespace» exC5.name c).description = c.description)) :=
  ⟨List.mem_singleton.mpr rfl,
    claim_C5_constructor_fixup [("obe::Graphics::Sprite", exC5)] "obe::Graphics::Sprite" exC5
      (List.mem_singleton.mpr rfl)⟩

/-! ### C7: the nobind filter -/

/-- C7: any entity of any kind of the (synthesis-merged) store whose flags
set `nobind` is absent from the flattened `all_elements` list, while the
store collection it came from is untouched by the filter (the element is
still among the store's elements). -/
theorem claim_C7_nobind_filter (dyn : Dict ClassModel) (db : CppDatabase) (e : Element)
    (hmem : e ∈ storeElements (mergeSynthesized dyn db))
    (hnb : e.flags.nobind = true) :
    e ∉ all_elements (mergeSynthesized dyn db) ∧
    e ∈ storeElements (mergeSynthesized dyn db) := by
  refine ⟨?_, hmem⟩
  intro hin
  have := (List.mem_filter.mp hin).2
  rw [hnb] at this
  simp at this

/-- Concrete input for the C7 witness: a store holding one `nobind` global. -/
def exC7 : CppDatabase :=
  { globals := [("obe::DebugFlag", { name := "DebugFlag", flags := { nobind := true } })] }

theorem claim_C7_witness :
    (Element.glob { name := "DebugFlag", flags := { nobind := true } }
        ∈ storeElements (mergeSynthesized [] exC7)) ∧
    ((Element.glob { name := "DebugFlag", flags := { nobind := true } }).flags.nobind = true) ∧
    (Element.glob { name := "DebugFlag", flags := { nobind := true } }
        ∉ all_elements (mergeSynthesized [] exC7) ∧
      Element.glob { name := "DebugFlag", flags := { nobind := true } }
        ∈ storeElements (mergeSynthesized [] exC7)) :=
  ⟨by decide, by decide,
    claim_C7_nobind_filter [] exC7
      (Element.glob { name := "DebugFlag", flags := { nobind := true } })
      (by decide) (by decide)⟩

/-! ### C6: operator-method removal -/

/-- In a dict with no duplicate keys, two entries with equal keys are the
same entry. -/
theorem entry_eq_of_nodupKeys {α : Type} {d : Dict α} (hnodup : (d.map Prod.fst).Nodup)
    {p q : String × α} (hp : p ∈ d) (hq : q ∈ d) (hk : p.1 = q.1) : p = q := by
  induction d with
  | nil => cases hp
  | cons r rest ih =>
    rw [List.map_cons, List.nodup_cons] at hnodup
    rcases List.mem_cons.mp hp with hp1 | hp1 <;> rcases List.mem_cons.mp hq with hq1 | hq1
    · rw [hp1, hq1]
    · exfalso
      apply hnodup.1
      have hqm : q.1 ∈ rest.map Prod.fst := List.mem_map_of_mem Prod.fst hq1
      have hr : r.1 = q.1 := by rw [← hp1]; exact hk
      rw [hr]
      exact hqm
    · exfalso
      apply hnodup.1
      have hpm : p.1 ∈ rest.map Prod.fst := List.mem_map_of_mem Prod.fst hp1
      have hr : r.1 = p.1 := by rw [← hq1]; exact hk.symm
      rw [hr]
      exact hpm
    · exact ih hnodup.2 hp1 hq1

/-- C6: after `_remove_operators`, no method whose name matches
`^operator\W` remains on any class, and (provided the class's method keys
are duplicate-free, as Python dicts guarantee) every method whose name does
not match the pattern — such as one literally named `operatorFoo` — is still
present. -/
theorem claim_C6_operator_removal (classes : Dict ClassModel) (k : String) (cv : ClassModel)
    (hmem : (k, cv) ∈ classes) :
    ∃ cv', (k, cv') ∈ _remove_operators classes ∧
      (∀ p ∈ cv'.methods, isOperatorName p.2.name = false) ∧
      ((cv.methods.map Prod.fst).Nodup →
        ∀ p ∈ cv.methods, isOperatorName p.2.name = false → p ∈ cv'.methods) := by
  refine ⟨_, List.mem_map_of_mem _ hmem, ?_, ?_⟩
  · intro p hp
    have hin := List.mem_of_mem_filter hp
    have hcond := List.of_mem_filter hp
    simp only [Bool.not_eq_true'] at hcond
    by_contra hop
    rw [Bool.not_eq_false] at hop
    have hmemf : p ∈ cv.methods.filter (fun q => isOperatorName q.2.name) :=
      List.mem_filter.mpr ⟨hin, hop⟩
    have : p.1 ∈ (cv.methods.filter (fun q => isOperatorName q.2.name)).map Prod.fst :=
      List.mem_map_of_mem Prod.fst hmemf
    rw [List.contains_eq_any_beq] at hcond
    simp only [List.any_eq_false] at hcond
    exact absurd (by simp : (p.1 == p.1) = true) (by simpa using hcond p.1 this)
  · intro hnodup p hp hop
    refine List.mem_filter.mpr ⟨hp, ?_⟩
    simp only [Bool.not_eq_true', List.contains_eq_any_beq, List.any_eq_false]
    intro a ha
    simp only [List.mem_map] at ha
    obtain ⟨q, hq, hqa⟩ := ha
    have hq1 := List.mem_of_mem_filter hq
    have hq2 := List.of_mem_filter hq
    intro hpa
    rw [beq_iff_eq] at hpa
    have hqp : q = p := entry_eq_of_nodupKeys hnodup hq1 hp (by rw [hqa, hpa])
    rw [hqp, hop] at hq2
    cases hq2

/-- Concrete input for the C6 witness: a class carrying `operator==`,
`operatorFoo` and a plain method. -/
def exC6 : ClassModel :=
  { name := "Vec"
    «namespace» := "obe"
    methods :=
      [("operator==", { name := "operator==" }),
       ("operatorFoo", { name := "operatorFoo" }),
       ("dot", { name := "dot" })] }

theorem claim_C6_witness :
    (("obe::Vec", exC6) ∈ [("obe::Vec", exC6)]) ∧
    (∃ cv', ("obe::Vec", cv') ∈ _remove_operators [("obe::Vec", exC6)] ∧
      (∀ p ∈ cv'.methods, isOperatorName p.2.name = false) ∧
      ((exC6.methods.map Prod.fst).Nodup →
        ∀ p ∈ exC6.methods, isOperatorName p.2.name = false → p ∈ cv'.methods)) :=
  ⟨List.mem_singleton.mpr rfl,
    claim_C6_operator_removal [("obe::Vec", exC6)] "obe::Vec" exC6 (List.mem_singleton.mpr rfl)⟩

/-! ### C2: as_property conversion -/

/-- A nonempty list whose elements are all `a` has last element `a`. -/
theorem getLast?_eq_of_all_eq {α : Type} {l : List α} {a : α} (hne : a ∈ l)
    (hall : ∀ x ∈ l, x = a) : l.getLast? = some a := by
  cases h : l.getLast? with
  | none =>
    rw [List.getLast?_eq_none_iff] at h
    rw [h] at hne
    cases hne
  | some q => rw [hall q (List.mem_of_getLast?_eq_some h)]

/-- C2: after `_setup_methods_as_attributes`, a method flagged `as_property`
is gone from its class's `methods` dict, and the class's `attributes` dict
holds, under the method's name, an attribute whose type is the method's
return type, whose qualifiers are exactly the method's const/static
qualifiers, and whose description, flags, export, location, visibility and
urls are copied from the method.  (The store invariant that a Python dict
has duplicate-free keys and that each method is stored under its own name
is taken as a hypothesis.) -/
theorem claim_C2_as_property_conversion (classes : Dict ClassModel) (k : String)
    (cv : ClassModel) (hmem : (k, cv) ∈ classes)
    (hkeys : ∀ p ∈ cv.methods, p.2.name = p.1)
    (hnodup : (cv.methods.map Prod.fst).Nodup)
    (mk : String) (m : FunctionModel) (hm : (mk, m) ∈ cv.methods)
    (hprop : m.flags.as_property = true) :
    ∃ cv', (k, cv') ∈ _setup_methods_as_attributes classes ∧
      cv'.methods.hasKey mk = false ∧
      Dict.get? cv'.attributes m.name = some (methodToAttribute m) ∧
      (methodToAttribute m).type = m.return_type ∧
      (methodToAttribute m).qualifiers = ⟨m.qualifiers.const, m.qualifiers.static⟩ ∧
      (methodToAttribute m).description = m.description ∧
      (methodToAttribute m).flags = m.flags ∧
      (methodToAttribute m).«export» = m.«export» ∧
      (methodToAttribute m).location = m.location ∧
      (methodToAttribute m).visibility = m.visibility ∧
      (methodToAttribute m).urls = m.urls := by
  refine ⟨setupClass cv, List.mem_map_of_mem _ hmem, ?_, ?_,
    rfl, rfl, rfl, rfl, rfl, rfl, rfl, rfl⟩
  · unfold setupClass
    simp only
    rw [Bool.eq_false_iff]
    intro hkcon
    unfold Dict.hasKey at hkcon
    rw [List.any_eq_true] at hkcon
    obtain ⟨q, hq, hqk⟩ := hkcon
    rw [beq_iff_eq] at hqk
    have hq2 := List.of_mem_filter hq
    rw [Bool.not_eq_true', List.contains_eq_any_beq, List.any_eq_false] at hq2
    have hmkpop : mk ∈ (cv.methods.filter (fun p => p.2.flags.as_property)).map Prod.fst :=
      List.mem_map.mpr ⟨(mk, m), List.mem_filter.mpr ⟨hm, hprop⟩, rfl⟩
    have hfalse := hq2 mk hmkpop
    rw [hqk] at hfalse
    simp at hfalse
  · unfold setupClass
    simp only
    rw [Dict.get?_foldl_insert (fun (p : String × FunctionModel) => p.2.name)
      (fun (p : String × FunctionModel) => methodToAttribute p.2)]
    have hlast :
        ((cv.methods.filter (fun p => p.2.flags.as_property)).filter
            (fun p => p.2.name == m.name)).getLast? = some (mk, m) := by
      apply getLast?_eq_of_all_eq
      · exact List.mem_filter.mpr ⟨List.mem_filter.mpr ⟨hm, hprop⟩, by simp⟩
      · intro q hq
        have hq1 := List.mem_of_mem_filter (List.mem_of_mem_filter hq)
        have hq2 := List.of_mem_filter hq
        rw [beq_iff_eq] at hq2
        have hqkey : q.1 = mk := by
          rw [← hkeys q hq1, hq2, hkeys (mk, m) hm]
        exact entry_eq_of_nodupKeys hnodup hq1 hm hqkey
    rw [hlast]

/-- Concrete input for the C2 witness: a class with an `as_property` getter
and a plain method. -/
def exC2m : FunctionModel :=
  { name := "get_id"
    «namespace» := "obe"
    return_type := { type := "string" }
    qualifiers := { const := true }
    description := "identifier"
    flags := { as_property := true }
    «export» := "exp"
    location := "Id.hpp"
    visibility := "public"
    urls := "u" }

def exC2 : ClassModel :=
  { name := "Id"
    «namespace» := "obe"
    methods := [("get_id", exC2m), ("reset", { name := "reset" })] }

theorem claim_C2_witness :
    (("obe::Id", exC2) ∈ [("obe::Id", exC2)]) ∧
    (∀ p ∈ exC2.methods, p.2.name = p.1) ∧
    (exC2.methods.map Prod.fst).Nodup ∧
    (("get_id", exC2m) ∈ exC2.methods) ∧
    exC2m.flags.as_property = true ∧
    (∃ cv', ("obe::Id", cv') ∈ _setup_methods_as_attributes [("obe::Id", exC2)] ∧
      cv'.methods.hasKey "get_id" = false ∧
      Dict.get? cv'.attributes exC2m.name = some (methodToAttribute exC2m) ∧
      (methodToAttribute exC2m).type = exC2m.return_type ∧
      (methodToAttribute exC2m).qualifiers = ⟨exC2m.qualifiers.const, exC2m.qualifiers.static⟩ ∧
      (methodToAttribute exC2m).description = exC2m.description ∧
      (methodToAttribute exC2m).flags = exC2m.flags ∧
      (methodToAttribute exC2m).«export» = exC2m.«export» ∧
      (methodToAttribute exC2m).location = exC2m.location ∧
      (methodToAttribute exC2m).visibility = exC2m.visibility ∧
      (methodToAttribute exC2m).urls = exC2m.urls) :=
  ⟨by decide, by decide, by decide, by decide, by decide,
    claim_C2_as_property_conversion [("obe::Id", exC2)] "obe::Id" exC2 (by decide)
      (by decide) (by decide) "get_id" exC2m (by decide) (by decide)⟩

/-! ### Structure of the synthesized event-table dict -/

theorem appendGroup_keys (gs : List (String × List (String × ClassModel))) (k : String)
    (v : String × ClassModel) :
    (appendGroup gs k v).map Prod.fst =
      if gs.any (fun p => p.1 == k) then gs.map Prod.fst else gs.map Prod.fst ++ [k] := by
  unfold appendGroup
  split
  · rw [List.map_map]
    have hcomp : (Prod.fst ∘ fun p : String × List (String × ClassModel) =>
        if p.1 = k then (p.1, p.2 ++ [v]) else p) = Prod.fst := by
      funext p
      by_cases h : p.1 = k <;> simp [h]
    rw [hcomp]
  · simp

theorem groupsFold_keys_nodup (ts : List (String × String × ClassModel))
    (gs : List (String × List (String × ClassModel))) (h : (gs.map Prod.fst).Nodup) :
    ((ts.foldl (fun gs t => appendGroup gs t.1 (t.2.1, t.2.2)) gs).map Prod.fst).Nodup := by
  induction ts generalizing gs with
  | nil => exact h
  | cons t ts ih =>
    rw [List.foldl_cons]
    apply ih
    rw [appendGroup_keys]
    split
    · exact h
    · rename_i hany
      rw [Bool.not_eq_true, List.any_eq_false] at hany
      rw [List.nodup_append]
      refine ⟨h, List.nodup_singleton t.1, ?_⟩
      intro a ha hak
      rw [List.mem_singleton] at hak
      rw [List.mem_map] at ha
      obtain ⟨p, hp, hpa⟩ := ha
      exact hany p hp (beq_iff_eq.mpr (hpa.trans hak))

theorem groupEvents_keys_nodup (classes : Dict ClassModel) :
    ((groupEvents classes).map Prod.fst).Nodup :=
  groupsFold_keys_nodup (eligibleEvents classes) [] List.nodup_nil

theorem eventGroups_keys (classes : Dict ClassModel) :
    (eventGroups classes).map Prod.fst = (groupEvents classes).map Prod.fst := by
  unfold eventGroups
  rw [List.map_map]
  rfl

theorem groups_key_ne_top (s : String) :
    ("obe::Events::_EventTableGroups::" ++ s) ≠ "obe::Events::_EventTable" := by
  intro h
  have hd : ("obe::Events::_EventTableGroups::" ++ s).data.length =
      "obe::Events::_EventTable".data.length := by rw [h]
  rw [String.data_append, List.length_append] at hd
  have h1 : "obe::Events::_EventTableGroups::".data.length = 32 := by rfl
  have h2 : "obe::Events::_EventTable".data.length = 24 := by rfl
  rw [h1, h2] at hd
  omega

/-- String append is left-cancellative. -/
theorem string_append_left_cancel {pre a b : String} (h : pre ++ a = pre ++ b) : a = b := by
  have hd := congrArg String.data h
  rw [String.data_append, String.data_append] at hd
  have hab := List.append_cancel_left hd
  cases a
  cases b
  exact congrArg String.mk hab

/-- The synthesized dict of `_build_table_for_events`, as a plain entry
list: one entry per section group, then the `_EventTable` entry. -/
theorem build_table_entries (classes : Dict ClassModel) :
    _build_table_for_events classes =
      (eventGroups classes).map (fun p => ("obe::Events::_EventTableGroups::" ++ p.1, p.2))
        ++ [("obe::Events::_EventTable", eventTableClass classes)] := by
  unfold _build_table_for_events
  have hnodup : ((eventGroups classes).map
      (fun p => "obe::Events::_EventTableGroups::" ++ p.1)).Nodup := by
    have : (eventGroups classes).map (fun p => "obe::Events::_EventTableGroups::" ++ p.1) =
        ((eventGroups classes).map Prod.fst).map
          (fun s => "obe::Events::_EventTableGroups::" ++ s) := by
      rw [List.map_map]
      rfl
    rw [this, eventGroups_keys]
    exact (groupEvents_keys_nodup classes).map
      (fun a b hab => string_append_left_cancel hab)
  rw [Dict.foldl_insert_eq_append
    (fun (p : String × ClassModel) => "obe::Events::_EventTableGroups::" ++ p.1)
    (fun (p : String × ClassModel) => p.2) (eventGroups classes) []
    (fun p _ => rfl) hnodup]
  rw [List.nil_append]
  have hfresh : Dict.hasKey
      ((eventGroups classes).map (fun p => ("obe::Events::_EventTableGroups::" ++ p.1, p.2)))
      "obe::Events::_EventTable" = false := by
    unfold Dict.hasKey
    rw [List.any_eq_false]
    intro p hp
    rw [List.mem_map] at hp
    obtain ⟨q, _, hq⟩ := hp
    intro hbeq
    rw [beq_iff_eq] at hbeq
    rw [← hq] at hbeq
    exact groups_key_ne_top q.1 hbeq
  unfold Dict.insert
  rw [hfresh]
  simp

/-! ### C10: the `_EventTable` class is always synthesized and merged -/

/-- C10: for every input store, `_build_table_for_events` contains the
top-level `_EventTable` class under key `obe::Events::_EventTable`, the
`|=` merge into the store contains it as well, and when no qualifying event
class exists its attributes dict is simply empty. -/
theorem claim_C10_event_table_always_present (classes : Dict ClassModel) :
    Dict.get? (_build_table_for_events classes) "obe::Events::_EventTable" =
      some (eventTableClass classes) ∧
    Dict.get? (Dict.update classes (_build_table_for_events classes))
      "obe::Events::_EventTable" = some (eventTableClass classes) ∧
    (eligibleEvents classes = [] → (eventTableClass classes).attributes = []) := by
  refine ⟨?_, ?_, ?_⟩
  · unfold _build_table_for_events
    rw [Dict.get?_insert, if_pos rfl]
  · rw [build_table_entries]
    unfold Dict.update
    rw [List.foldl_append, List.foldl_cons, List.foldl_nil, Dict.get?_insert, if_pos rfl]
  · intro h
    simp [eventTableClass, eventGroups, groupEvents, h]

/-- Concrete input for the C10 witness: a store holding one class that is
not under the events root. -/
def exC10 : Dict ClassModel :=
  [("obe::Animation::Animation", { name := "Animation", «namespace» := "obe::Animation" })]

theorem claim_C10_witness :
    eligibleEvents exC10 = [] ∧ (eventTableClass exC10).attributes = [] :=
  ⟨by decide, (claim_C10_event_table_always_present exC10).2.2 (by decide)⟩

/-! ### C8: the namespace-container list -/

/-- C8: `_get_namespace_tables` yields exactly the distinct dot-rewritten
non-empty namespaces of the elements, without duplicates, ordered so that a
namespace with fewer separators always precedes one with more. -/
theorem claim_C8_namespace_tables (elements : List Element) :
    (∀ x, x ∈ _get_namespace_tables elements ↔
      ∃ e ∈ elements, e.nspace ≠ "" ∧ x = replaceColons e.nspace) ∧
    (_get_namespace_tables elements).Nodup ∧
    (∀ x ∈ _get_namespace_tables elements, ∀ y ∈ _get_namespace_tables elements,
      countDots x < countDots y →
        (_get_namespace_tables elements).indexOf x <
          (_get_namespace_tables elements).indexOf y) := by
  refine ⟨?_, ?_, ?_⟩
  · intro x
    unfold _get_namespace_tables
    rw [(List.perm_insertionSort nsLE _).mem_iff, List.mem_dedup, List.mem_filterMap]
    constructor
    · rintro ⟨e, he, hx⟩
      by_cases hns : e.nspace = ""
      · rw [if_pos hns] at hx
        cases hx
      · rw [if_neg hns] at hx
        exact ⟨e, he, hns, (Option.some_inj.mp hx).symm⟩
    · rintro ⟨e, he, hns, hx⟩
      exact ⟨e, he, by rw [if_neg hns, hx]⟩
  · exact (List.perm_insertionSort nsLE _).symm.nodup (List.nodup_dedup _)
  · intro x hx y hy hcount
    have hsorted : (_get_namespace_tables elements).Sorted nsLE :=
      List.sorted_insertionSort nsLE _
    have hnodup : (_get_namespace_tables elements).Nodup :=
      (List.perm_insertionSort nsLE _).symm.nodup (List.nodup_dedup _)
    set l := _get_namespace_tables elements with hl
    have hxlt : l.indexOf x < l.length := List.indexOf_lt_length.mpr hx
    have hylt : l.indexOf y < l.length := List.indexOf_lt_length.mpr hy
    by_contra hcon
    rw [Nat.not_lt] at hcon
    rcases Nat.eq_or_lt_of_le hcon with heq | hlt
    · have hxy : x = y := by
        have h1 : l.get ⟨l.indexOf x, hxlt⟩ = x := List.indexOf_get hxlt
        have h2 : l.get ⟨l.indexOf y, hylt⟩ = y := List.indexOf_get hylt
        rw [← h1, ← h2]
        congr 1
        exact Fin.ext heq.symm
      rw [hxy] at hcount
      exact Nat.lt_irrefl _ hcount
    · have hrel : nsLE (l.get ⟨l.indexOf y, hylt⟩) (l.get ⟨l.indexOf x, hxlt⟩) :=
        hsorted.rel_get_of_lt (Fin.mk_lt_mk.mpr hlt)
      rw [List.indexOf_get hxlt, List.indexOf_get hylt] at hrel
      unfold nsLE at hrel
      omega

/-- Concrete input for the C8 witness: elements in two namespaces of
different depth, deeper one listed first. -/
def exC8 : List Element :=
  [Element.func { name := "f", «namespace» := "obe::Events::Actions" },
   Element.func { name := "g", «namespace» := "obe::Utils" },
   Element.func { name := "h", «namespace» := "obe::Events::Actions" }]

theorem claim_C8_witness :
    ("obe.Utils" ∈ _get_namespace_tables exC8) ∧
    ("obe.Events.Actions" ∈ _get_namespace_tables exC8) ∧
    countDots "obe.Utils" < countDots "obe.Events.Actions" ∧
    (_get_namespace_tables exC8).indexOf "obe.Utils" <
      (_get_namespace_tables exC8).indexOf "obe.Events.Actions" :=
  ⟨by decide, by decide, by decide,
    (claim_C8_namespace_tables exC8).2.2 "obe.Utils" (by decide)
      "obe.Events.Actions" (by decide) (by decide)⟩

/-! ### C3: relative order of bind_to renaming and as_property conversion -/

theorem fixFunc_flags (m : FunctionModel) : (fixFunc m).flags = m.flags := by
  unfold fixFunc
  split <;> rfl

theorem fixFunc_id (m : FunctionModel) (h : m.flags.bind_to = "") : fixFunc m = m := by
  unfold fixFunc
  rw [if_pos h]

theorem fixAttr_methodToAttribute (m : FunctionModel) (h : m.flags.bind_to = "") :
    fixAttr (methodToAttribute m) = methodToAttribute m := by
  unfold fixAttr
  rw [if_pos (show (methodToAttribute m).flags.bind_to = "" from h)]

/-- Mapping a value transformation over a dict commutes with `insert`. -/
theorem Dict.map_value_insert {α β : Type} (f : α → β) (d : Dict α) (k : String) (v : α) :
    (d.insert k v).map (fun p => (p.1, f p.2)) =
      Dict.insert (d.map (fun p => (p.1, f p.2))) k (f v) := by
  unfold Dict.insert
  have hkey : Dict.hasKey (d.map (fun p => (p.1, f p.2))) k = d.hasKey k := by
    induction d with
    | nil => rfl
    | cons p rest ih =>
      rw [List.map_cons, Dict.hasKey_cons, Dict.hasKey_cons, ih]
  rw [hkey]
  by_cases h : d.hasKey k
  · rw [if_pos h, if_pos h, List.map_map, List.map_map]
    congr 1
    funext p
    by_cases hp : p.1 = k <;> simp [hp]
  · rw [if_neg h, if_neg h, List.map_append]
    rfl

/-- Mapping `fixAttr` over the attribute dict commutes with the
attribute-insertion fold of `setupClass`, provided the inserted methods
carry no `bind_to`. -/
theorem map_fixAttr_foldl (props : List (String × FunctionModel)) (A : Dict AttributeModel)
    (hbind : ∀ p ∈ props, p.2.flags.bind_to = "") :
    (props.foldl (fun acc p => Dict.insert acc p.2.name (methodToAttribute p.2)) A).map
        (fun p => (p.1, fixAttr p.2)) =
      props.foldl (fun acc p => Dict.insert acc p.2.name (methodToAttribute p.2))
        (A.map (fun p => (p.1, fixAttr p.2))) := by
  induction props generalizing A with
  | nil => rfl
  | cons p ps ih =>
    rw [List.foldl_cons, List.foldl_cons,
      ih _ (fun q hq => hbind q (List.mem_cons_of_mem p hq)),
      Dict.map_value_insert,
      fixAttr_methodToAttribute p.2 (hbind p (List.mem_cons_self p ps))]

/-- Per-class commutation: under the hypothesis that no `as_property` method
also carries a `bind_to` rename, the rename pass and the property-conversion
pass commute. -/
theorem fix_setup_commute (cv : ClassModel)
    (hyp : ∀ p ∈ cv.methods, p.2.flags.as_property = true → p.2.flags.bind_to = "") :
    setupClass (fixClass cv) = fixClass (setupClass cv) := by
  have hpropsfix : ∀ p ∈ cv.methods.filter (fun q => q.2.flags.as_property),
      (fun p : String × FunctionModel => (p.1, fixFunc p.2)) p = id p := by
    intro p hp
    have h1 := List.mem_of_mem_filter hp
    have h2 := List.of_mem_filter hp
    simp only [id]
    rw [fixFunc_id _ (hyp p h1 h2)]
  have hprops : (cv.methods.map (fun p => (p.1, fixFunc p.2))).filter
      (fun q => q.2.flags.as_property) = cv.methods.filter (fun q => q.2.flags.as_property) := by
    rw [List.filter_map]
    have hcomp : ∀ p ∈ cv.methods,
        ((fun q : String × FunctionModel => q.2.flags.as_property) ∘
          fun p => (p.1, fixFunc p.2)) p = (fun q : String × FunctionModel =>
            q.2.flags.as_property) p := by
      intro p _
      simp only [Function.comp]
      rw [fixFunc_flags]
    rw [List.filter_congr hcomp, List.map_congr_left hpropsfix, List.map_id]
  have hbind : ∀ p ∈ cv.methods.filter (fun q => q.2.flags.as_property),
      p.2.flags.bind_to = "" := by
    intro p hp
    have h1 := List.mem_of_mem_filter hp
    have h2 := List.of_mem_filter hp
    exact hyp p h1 h2
  simp only [setupClass, fixClass, hprops, ClassModel.mk.injEq, true_and, and_true]
  refine ⟨?_, ?_⟩
  · exact (map_fixAttr_foldl _ cv.attributes hbind).symm
  · rw [List.filter_map]
    have hcomp2 : ∀ p ∈ cv.methods,
        ((fun p : String × FunctionModel =>
            !(((cv.methods.filter (fun q => q.2.flags.as_property)).map Prod.fst).contains p.1)) ∘
          fun p => (p.1, fixFunc p.2)) p =
        (fun p : String × FunctionModel =>
            !(((cv.methods.filter (fun q => q.2.flags.as_property)).map Prod.fst).contains p.1))
          p := fun p _ => rfl
    rw [List.filter_congr hcomp2]

/-- C3 (amended): the two passes applied to the class store in either order
agree on every store in which no method flagged `as_property` also carries a
`bind_to` rename target. -/
theorem claim_C3_rename_property_order (classes : Dict ClassModel)
    (hyp : ∀ q ∈ classes, ∀ p ∈ q.2.methods,
      p.2.flags.as_property = true → p.2.flags.bind_to = "") :
    _setup_methods_as_attributes (fixBindAsClasses classes) =
      fixBindAsClasses (_setup_methods_as_attributes classes) := by
  unfold _setup_methods_as_attributes fixBindAsClasses
  rw [List.map_map, List.map_map]
  apply List.map_congr_left
  intro q hq
  simp only [Function.comp]
  rw [fix_setup_commute q.2 (hyp q hq)]

/-- Counterexample input for C3 as stated: one method that both renames via
`bind_to` and converts via `as_property`. -/
def exC3m : FunctionModel :=
  { name := "get_x", flags := { bind_to := "x", as_property := true } }

def exC3 : Dict ClassModel :=
  [("C", { name := "C", methods := [("get_x", exC3m)] })]

/-- C3 counterexample: on a class whose method has both a `bind_to` rename
target and the `as_property` flag, running the rename pass before the
property-conversion pass stores the synthesized attribute under key `x`,
while the opposite order stores it under key `get_x` — the two orders do not
produce the same store. -/
theorem claim_C3_counterexample :
    _setup_methods_as_attributes (fixBindAsClasses exC3) ≠
      fixBindAsClasses (_setup_methods_as_attributes exC3) := by decide

/-- Concrete input for the C3 witness: an `as_property` method without
rename, a renamed plain method, and a pre-existing attribute. -/
def exC3b : Dict ClassModel :=
  [("C", { name := "C"
           methods :=
             [("get_x", { name := "get_x", flags := { as_property := true } }),
              ("ren", { name := "ren", flags := { bind_to := "renamed" } })]
           attributes := [("a", { name := "a" })] })]

theorem claim_C3_witness :
    (∀ q ∈ exC3b, ∀ p ∈ q.2.methods,
      p.2.flags.as_property = true → p.2.flags.bind_to = "") ∧
    _setup_methods_as_attributes (fixBindAsClasses exC3b) =
      fixBindAsClasses (_setup_methods_as_attributes exC3b) :=
  ⟨by decide, claim_C3_rename_property_order exC3b (by decide)⟩

/-! ### Lookup lemmas for the event grouping -/

theorem Dict.get?_isSome_of_hasKey {α : Type} {d : Dict α} {k : String}
    (h : d.hasKey k = true) : ∃ v, d.get? k = some v := by
  induction d with
  | nil => simp [Dict.hasKey] at h
  | cons p rest ih =>
    by_cases hp : p.1 = k
    · exact ⟨p.2, by simp [Dict.get?, hp]⟩
    · rw [Dict.hasKey_cons, Bool.or_eq_true] at h
      rcases h with h | h
      · rw [beq_iff_eq] at h
        exact absurd h hp
      · obtain ⟨v, hv⟩ := ih h
        exact ⟨v, by simp [Dict.get?, hp, hv]⟩

theorem get?_map_appendv (gs : List (String × List (String × ClassModel))) (k : String)
    (v : String × ClassModel) (x : String) :
    Dict.get? (gs.map (fun p => if p.1 = k then (p.1, p.2 ++ [v]) else p)) x =
      if x = k then (Dict.get? gs k).map (fun l => l ++ [v]) else Dict.get? gs x := by
  induction gs with
  | nil => by_cases hx : x = k <;> simp [Dict.get?, hx]
  | cons p rest ih =>
    by_cases hp : p.1 = k <;> by_cases hx : x = k
    · subst hx
      simp [Dict.get?, hp, ih]
    · have hkx : k ≠ x := fun h => hx h.symm
      have hpx : p.1 ≠ x := by rw [hp]; exact hkx
      simp [Dict.get?, hp, hx, hkx, hpx, ih]
    · subst hx
      simp [Dict.get?, hp, ih]
    · simp [Dict.get?, hp, hx, ih]

theorem get?_appendGroup (gs : List (String × List (String × ClassModel))) (k : String)
    (v : String × ClassModel) (x : String) :
    Dict.get? (appendGroup gs k v) x =
      if x = k then
        match Dict.get? gs k with
        | some l => some (l ++ [v])
        | none => some [v]
      else Dict.get? gs x := by
  unfold appendGroup
  by_cases hk : gs.any (fun p => p.1 == k)
  · rw [if_pos hk, get?_map_appendv]
    by_cases hx : x = k
    · rw [if_pos hx, if_pos hx]
      obtain ⟨l, hl⟩ := Dict.get?_isSome_of_hasKey (d := gs) hk
      rw [hl]
      rfl
    · rw [if_neg hx, if_neg hx]
  · rw [if_neg hk, Dict.get?_append]
    by_cases hx : x = k
    · subst hx
      rw [Dict.get?_eq_none_of_hasKey_eq_false (Bool.of_not_eq_true hk), if_pos rfl]
      simp [Dict.get?]
    · rw [if_neg hx]
      cases h : Dict.get? gs x with
      | some w => rfl
      | none =>
        have hkx : ¬k = x := fun hh => hx hh.symm
        simp [Dict.get?, hkx]

theorem get?_groupsFold (ts : List (String × String × ClassModel))
    (gs : List (String × List (String × ClassModel))) (x : String) :
    Dict.get? (ts.foldl (fun gs t => appendGroup gs t.1 (t.2.1, t.2.2)) gs) x =
      match Dict.get? gs x with
      | some l =>
          some (l ++ ts.filterMap (fun t => if t.1 = x then some (t.2.1, t.2.2) else none))
      | none =>
          if ts.filterMap (fun t => if t.1 = x then some (t.2.1, t.2.2) else none) = [] then none
          else some (ts.filterMap (fun t => if t.1 = x then some (t.2.1, t.2.2) else none)) := by
  induction ts generalizing gs with
  | nil => cases h : Dict.get? gs x <;> simp [h]
  | cons t ts ih =>
    rw [List.foldl_cons, ih, List.filterMap_cons, get?_appendGroup]
    by_cases ht : t.1 = x
    · rw [if_pos ht, if_pos ht.symm, ht]
      cases h : Dict.get? gs x with
      | some l => simp
      | none => simp
    · rw [if_neg ht, if_neg (fun h => ht h.symm)]

theorem get?_groupEvents (classes : Dict ClassModel) (sec : String) :
    Dict.get? (groupEvents classes) sec =
      if (eligibleEvents classes).filterMap
          (fun t => if t.1 = sec then some (t.2.1, t.2.2) else none) = [] then none
      else some ((eligibleEvents classes).filterMap
          (fun t => if t.1 = sec then some (t.2.1, t.2.2) else none)) := by
  unfold groupEvents
  rw [get?_groupsFold]
  rfl

/-- Looking a key up in a dict whose values were rebuilt from key and value. -/
theorem Dict.get?_map_pair {α β : Type} (f : String → α → β) (d : Dict α) (x : String) :
    Dict.get? (d.map (fun p => (p.1, f p.1 p.2))) x = (Dict.get? d x).map (f x) := by
  induction d with
  | nil => rfl
  | cons p rest ih =>
    by_cases hp : p.1 = x
    · simp [Dict.get?, hp]
    · simp [Dict.get?, hp, ih]

/-- Looking up a uniformly prefixed key in a dict with uniformly prefixed
keys. -/
theorem get?_map_prefixed {α : Type} (pre : String) (d : Dict α) (x : String) :
    Dict.get? (d.map (fun p => (pre ++ p.1, p.2))) (pre ++ x) = Dict.get? d x := by
  induction d with
  | nil => rfl
  | cons p rest ih =>
    by_cases hp : p.1 = x
    · simp [Dict.get?, hp]
    · have hne : pre ++ p.1 ≠ pre ++ x := fun h => hp (string_append_left_cancel h)
      simp [Dict.get?, hp, hne, ih]

/-- Section lookup in the full synthesized event table. -/
theorem get?_build_table_section (classes : Dict ClassModel) (sec : String) :
    Dict.get? (_build_table_for_events classes)
        ("obe::Events::_EventTableGroups::" ++ sec) =
      Dict.get? (eventGroups classes) sec := by
  rw [build_table_entries, Dict.get?_append, get?_map_prefixed]
  cases h : Dict.get? (eventGroups classes) sec with
  | some g => rfl
  | none =>
    simp only
    rw [Dict.get?]
    rw [if_neg (fun h => groups_key_ne_top sec h.symm)]
    rfl

/-! ### C4: grouping key for nested event namespaces -/

/-- Concrete input refuting C4 as stated: an event class two namespace
levels below the events root. -/
def exC4 : Dict ClassModel :=
  [("obe::Events::Input::Deep::Pressed",
    { name := "Pressed"
      «namespace» := "obe::Events::Input::Deep"
      attributes := [("id", { name := "id", initializer := "= \x22Pressed\x22" })] })]

/-- C4 counterexample: for an event class at `obe::Events::Input::Deep`, no
section group named by the immediate sub-namespace `Input` is synthesized;
the class is grouped under the full suffix `Input::Deep` instead. -/
theorem claim_C4_counterexample :
    Dict.get? (_build_table_for_events exC4) "obe::Events::_EventTableGroups::Input" = none ∧
    (Dict.get? (_build_table_for_events exC4)
      "obe::Events::_EventTableGroups::Input::Deep").isSome = true := by decide

/-- C4 (amended): a class under the events root with an `id` attribute is
assigned to the group named by the entire namespace path below the root
(`namespace.removeprefix("obe::Events::")`), which coincides with the
immediate sub-namespace only for classes exactly one level below the root. -/
theorem claim_C4_grouping_full_suffix (classes : Dict ClassModel) (cv : ClassModel)
    (hmem : cv ∈ classes.map Prod.snd)
    (hns : startsWithStr cv.«namespace» eventsRoot = true)
    (a : AttributeModel) (hid : Dict.get? cv.attributes "id" = some a) :
    ∃ g, Dict.get? (_build_table_for_events classes)
        ("obe::Events::_EventTableGroups::" ++ removePrefixStr cv.«namespace» eventsRoot) =
        some g ∧
      g.name = removePrefixStr cv.«namespace» eventsRoot ∧
      g.«namespace» = "obe::Events::_EventTableGroups" ∧
      Dict.hasKey g.attributes (extractEventId a.initializer) = true := by
  have hev : cv ∈ eventsFromClasses classes := List.mem_filter.mpr ⟨hmem, hns⟩
  have helig : (removePrefixStr cv.«namespace» eventsRoot, extractEventId a.initializer, cv)
      ∈ eligibleEvents classes := by
    unfold eligibleEvents
    refine List.mem_filterMap.mpr ⟨cv, hev, ?_⟩
    rw [hid]
  have hevts : (extractEventId a.initializer, cv) ∈ (eligibleEvents classes).filterMap
      (fun t => if t.1 = removePrefixStr cv.«namespace» eventsRoot
        then some (t.2.1, t.2.2) else none) := by
    refine List.mem_filterMap.mpr ⟨_, helig, ?_⟩
    rw [if_pos rfl]
  have hne : (eligibleEvents classes).filterMap
      (fun t => if t.1 = removePrefixStr cv.«namespace» eventsRoot
        then some (t.2.1, t.2.2) else none) ≠ [] :=
    List.ne_nil_of_mem hevts
  refine ⟨buildGroupClass (removePrefixStr cv.«namespace» eventsRoot)
      ((eligibleEvents classes).filterMap
        (fun t => if t.1 = removePrefixStr cv.«namespace» eventsRoot
          then some (t.2.1, t.2.2) else none)), ?_, rfl, rfl, ?_⟩
  · rw [get?_build_table_section]
    unfold eventGroups
    rw [Dict.get?_map_pair buildGroupClass (groupEvents classes)
      (removePrefixStr cv.«namespace» eventsRoot)]
    rw [get?_groupEvents, if_neg hne]
    rfl
  · unfold buildGroupClass
    simp only
    rw [Dict.hasKey_foldl_insert (fun (p : String × ClassModel) => p.1)
      (fun (p : String × ClassModel) =>
        mkEventAttr (removePrefixStr cv.«namespace» eventsRoot) p.1 p.2)]
    rw [Bool.or_eq_true, List.any_eq_true]
    exact Or.inr ⟨(extractEventId a.initializer, cv), hevts, by simp⟩

/-- Concrete input for the C4 witness: the amended grouping at depth two. -/
def exC4b : Dict ClassModel :=
  [("obe::Events::Input::Deep::Held",
    { name := "Held"
      «namespace» := "obe::Events::Input::Deep"
      attributes := [("id", { name := "id", initializer := "= \x22Held\x22" })] })]

theorem claim_C4_witness :
    (({ name := "Held"
        «namespace» := "obe::Events::Input::Deep"
        attributes := [("id", { name := "id", initializer := "= \x22Held\x22" })] : ClassModel })
      ∈ exC4b.map Prod.snd) ∧
    (∃ g, Dict.get? (_build_table_for_events exC4b)
        ("obe::Events::_EventTableGroups::" ++
          removePrefixStr "obe::Events::Input::Deep" eventsRoot) = some g ∧
      g.name = removePrefixStr "obe::Events::Input::Deep" eventsRoot ∧
      g.«namespace» = "obe::Events::_EventTableGroups" ∧
      Dict.hasKey g.attributes
        (extractEventId ({ name := "id", initializer := "= \x22Held\x22" :
          AttributeModel }).initializer) = true) :=
  ⟨by decide,
    claim_C4_grouping_full_suffix exC4b
      { name := "Held"
        «namespace» := "obe::Events::Input::Deep"
        attributes := [("id", { name := "id", initializer := "= \x22Held\x22" })] }
      (by decide) (by decide)
      { name := "id", initializer := "= \x22Held\x22" } (by decide)⟩

/-! ### C1: event-table synthesis for classes directly under the events root -/

theorem replaceColonsL_cons_ne {c : Char} (l : List Char) (h : ¬c = ':') :
    replaceColonsL (c :: l) = c :: replaceColonsL l := by
  cases l with
  | nil => rfl
  | cons c2 l2 =>
    rw [replaceColonsL, if_neg (fun hand => h hand.1)]

theorem replaceColonsL_no_colon (l : List Char) (h : ∀ c ∈ l, ¬c = ':') :
    replaceColonsL l = l := by
  induction l with
  | nil => rfl
  | cons c rest ih =>
    rw [replaceColonsL_cons_ne rest (h c (List.mem_cons_self c rest)),
      ih (fun d hd => h d (List.mem_cons_of_mem c hd))]

theorem replaceColonsL_events_root (l : List Char) :
    replaceColonsL ("obe::Events::".data ++ l) = "obe.Events.".data ++ replaceColonsL l := rfl

/-- Rewriting `::` to `.` in a namespace that is the events root followed by
a colon-free section name is the root in dot form followed by the section. -/
theorem replaceColons_root_append (sec : String) (h : ¬ ':' ∈ sec.data) :
    replaceColons ("obe::Events::" ++ sec) = "obe.Events." ++ sec := by
  unfold replaceColons
  have hd : replaceColonsL (("obe::Events::" ++ sec).data) = ("obe.Events." ++ sec).data := by
    rw [String.data_append, String.data_append, replaceColonsL_events_root]
    congr 1
    exact replaceColonsL_no_colon sec.data (fun c hc hcol => h (hcol ▸ hc))
  rw [hd]

theorem startsWithStr_append (pre s : String) : startsWithStr (pre ++ s) pre = true := by
  unfold startsWithStr
  rw [String.data_append, List.isPrefixOf_iff_prefix]
  exact List.prefix_append pre.data s.data

theorem removePrefixStr_append (pre s : String) : removePrefixStr (pre ++ s) pre = s := by
  unfold removePrefixStr
  have hc : pre.data.isPrefixOf ((pre ++ s).data) = true := by
    rw [String.data_append, List.isPrefixOf_iff_prefix]
    exact List.prefix_append pre.data s.data
  rw [if_pos hc]
  have hdrop : (pre ++ s).data.drop pre.data.length = s.data := by
    rw [String.data_append]
    exact List.drop_left pre.data s.data
  rw [hdrop]

/-- Restricting a section's event list to one event id mirrors a double
filter on the eligible-event list. -/
theorem filter_filterMap_sections (ts : List (String × String × ClassModel))
    (sec eid : String) :
    (ts.filterMap (fun t => if t.1 = sec then some (t.2.1, t.2.2) else none)).filter
        (fun p => p.1 == eid) =
      (ts.filter (fun t => t.1 == sec && t.2.1 == eid)).map (fun t => (t.2.1, t.2.2)) := by
  induction ts with
  | nil => rfl
  | cons t ts ih =>
    rw [List.filterMap_cons, List.filter_cons]
    by_cases hs : t.1 = sec <;> by_cases he : t.2.1 = eid
    · simp [hs, he, List.filter_cons, ih]
      rw [← he]
    · simp [hs, he, List.filter_cons, ih]
    · simp [hs, he, ih]
    · simp [hs, he, ih]

set_option maxHeartbeats 2000000 in
/-- C1 (amended): for a class whose namespace is exactly one (colon-free)
level below the events root, with an `id` attribute whose extracted literal
is unique in its section, the synthesized section class holds an attribute
keyed by that literal whose type is the callable type over the dot-qualified
event class name, and the synthesized `_EventTable` class holds an attribute
keyed by the section name referencing the section's synthetic class. -/
theorem claim_C1_event_table_synthesis (classes : Dict ClassModel) (cv : ClassModel)
    (sec : String) (hmem : cv ∈ classes.map Prod.snd)
    (hns : cv.«namespace» = "obe::Events::" ++ sec)
    (hsec : ¬ ':' ∈ sec.data)
    (a : AttributeModel) (hid : Dict.get? cv.attributes "id" = some a)
    (huniq : (eligibleEvents classes).filter
        (fun t => t.1 == sec && t.2.1 == extractEventId a.initializer) =
      [(sec, extractEventId a.initializer, cv)]) :
    ∃ g, Dict.get? (_build_table_for_events classes)
        ("obe::Events::_EventTableGroups::" ++ sec) = some g ∧
      Dict.get? g.attributes (extractEventId a.initializer) =
        some (mkEventAttr sec (extractEventId a.initializer) cv) ∧
      (mkEventAttr sec (extractEventId a.initializer) cv).type =
        { type := "fun(evt:" ++ (replaceColons cv.«namespace» ++ "." ++ cv.name) ++ ")" } ∧
      ∃ et, Dict.get? (_build_table_for_events classes) "obe::Events::_EventTable" =
          some et ∧
        ∃ ga, Dict.get? et.attributes sec = some ga ∧
          ga.name = sec ∧
          ga.type = { type := "obe.Events._EventTableGroups." ++ sec } := by
  have hfilter : ((eligibleEvents classes).filterMap
      (fun t => if t.1 = sec then some (t.2.1, t.2.2) else none)).filter
        (fun p => p.1 == extractEventId a.initializer) =
      [(extractEventId a.initializer, cv)] := by
    rw [filter_filterMap_sections, huniq]
    rfl
  have hmemevts : (extractEventId a.initializer, cv) ∈ (eligibleEvents classes).filterMap
      (fun t => if t.1 = sec then some (t.2.1, t.2.2) else none) := by
    have hmemf : (extractEventId a.initializer, cv) ∈ ((eligibleEvents classes).filterMap
        (fun t => if t.1 = sec then some (t.2.1, t.2.2) else none)).filter
          (fun p => p.1 == extractEventId a.initializer) := by
      rw [hfilter]
      exact List.mem_singleton.mpr rfl
    exact List.mem_of_mem_filter hmemf
  have hne : (eligibleEvents classes).filterMap
      (fun t => if t.1 = sec then some (t.2.1, t.2.2) else none) ≠ [] :=
    List.ne_nil_of_mem hmemevts
  have hgroups : Dict.get? (groupEvents classes) sec =
      some ((eligibleEvents classes).filterMap
        (fun t => if t.1 = sec then some (t.2.1, t.2.2) else none)) := by
    rw [get?_groupEvents, if_neg hne]
  have hgget : Dict.get? (eventGroups classes) sec =
      some (buildGroupClass sec ((eligibleEvents classes).filterMap
        (fun t => if t.1 = sec then some (t.2.1, t.2.2) else none))) := by
    unfold eventGroups
    rw [Dict.get?_map_pair buildGroupClass, hgroups]
    rfl
  refine ⟨buildGroupClass sec ((eligibleEvents classes).filterMap
      (fun t => if t.1 = sec then some (t.2.1, t.2.2) else none)), ?_, ?_, ?_,
    eventTableClass classes, ?_,
    mkGroupAttr sec (buildGroupClass sec ((eligibleEvents classes).filterMap
      (fun t => if t.1 = sec then some (t.2.1, t.2.2) else none))), ?_, rfl, rfl⟩
  · rw [get?_build_table_section, hgget]
  · unfold buildGroupClass
    simp only
    rw [Dict.get?_foldl_insert (fun (p : String × ClassModel) => p.1)
      (fun (p : String × ClassModel) => mkEventAttr sec p.1 p.2)]
    rw [hfilter]
    rfl
  · unfold mkEventAttr
    simp only
    rw [hns, replaceColons_root_append sec hsec]
    rfl
  · unfold _build_table_for_events
    rw [Dict.get?_insert, if_pos rfl]
  · unfold eventTableClass
    simp only
    rw [Dict.get?_map_pair mkGroupAttr, hgget]
    rfl

/-- Concrete input refuting C1 as stated: an event class two namespace
levels below the events root. -/
def exC1bad : Dict ClassModel :=
  [("obe::Events::Window::Sub::Resized",
    { name := "Resized"
      «namespace» := "obe::Events::Window::Sub"
      attributes := [("id", { name := "id", initializer := "= \x22Resized\x22" })] })]

/-- C1 counterexample: for an event class at `obe::Events::Window::Sub`, no
synthesized class carries any attribute whose type is the callable type over
the dot-qualified event class name
(`fun(evt:obe.Events.Window.Sub.Resized)`); the synthesized attribute keeps
`::` inside the section part instead. -/
theorem claim_C1_counterexample :
    (_build_table_for_events exC1bad).all (fun p =>
      p.2.attributes.all (fun q =>
        !(decide (q.2.type = { type := "fun(evt:" ++
          (replaceColons "obe::Events::Window::Sub" ++ "." ++ "Resized") ++ ")" })))) = true := by
  decide

def exC1attr : AttributeModel := { name := "id", initializer := "= \x22KeyPressed\x22" }

def exC1cv : ClassModel :=
  { name := "KeyPressed"
    «namespace» := "obe::Events::Input"
    attributes := [("id", exC1attr)] }

/-- Concrete input for the C1 witness: the spec's
`Events::Input::KeyPressed` example. -/
def exC1 : Dict ClassModel := [("obe::Events::Input::KeyPressed", exC1cv)]

theorem claim_C1_witness :
    (exC1cv ∈ exC1.map Prod.snd) ∧
    (exC1cv.«namespace» = "obe::Events::" ++ "Input") ∧
    (¬ ':' ∈ "Input".data) ∧
    (Dict.get? exC1cv.attributes "id" = some exC1attr) ∧
    ((eligibleEvents exC1).filter
        (fun t => t.1 == "Input" && t.2.1 == extractEventId exC1attr.initializer) =
      [("Input", extractEventId exC1attr.initializer, exC1cv)]) ∧
    (∃ g, Dict.get? (_build_table_for_events exC1)
        ("obe::Events::_EventTableGroups::" ++ "Input") = some g ∧
      Dict.get? g.attributes (extractEventId exC1attr.initializer) =
        some (mkEventAttr "Input" (extractEventId exC1attr.initializer) exC1cv) ∧
      (mkEventAttr "Input" (extractEventId exC1attr.initializer) exC1cv).type =
        { type := "fun(evt:" ++ (replaceColons exC1cv.«namespace» ++ "." ++ exC1cv.name)
           ++ ")" } ∧
      ∃ et, Dict.get? (_build_table_for_events exC1) "obe::Events::_EventTable" =
          some et ∧
        ∃ ga, Dict.get? et.attributes "Input" = some ga ∧
          ga.name = "Input" ∧
          ga.type = { type := "obe.Events._EventTableGroups." ++ "Input" }) :=
  ⟨by decide, by decide, by decide, by decide, by decide,
    claim_C1_event_table_synthesis exC1 exC1cv "Input" (by decide) (by decide) (by decide)
      exC1attr (by decide) (by decide)⟩

end Obidog
